import Mathlib

/-!
Verification development for the gitdis repository: a shallow embedding of
the capacity-bounded sorted cache (quickleaf/src/quickleaf.rs and
memotree/src/cache.rs), branch-key derivation
(gitdis/src/branch_settings.rs), the payload decoder and flattener
(gitdis/src/payload.rs), the diff name-status parser
(gitdis/src/branch_handler.rs), and the service read API
(gitdis/src/services.rs), together with theorems settling the frozen
claims about them.

Rust strings are modelled as lists of characters (`Str`); Rust byte-wise
lexicographic `Ord` on `String` coincides with character-wise
lexicographic order, which is what `ltStr` implements.  Rust `HashMap` is
modelled as an association list with overwrite-on-insert semantics
(`insertKV`); iteration order of a `HashMap` is unspecified in Rust, and
the association-list order is one fixed representative of it.  Fallible
or panicking paths are modelled with `Option`/`Except`: `none` at the
outer level stands for a Rust panic.
-/

/-- Character-list model of Rust `String`. -/
abbrev Str := List Char

/-- Lexicographic strict order on strings, mirroring Rust `Ord` on `String`
(byte-wise comparison; for the character sets involved byte order and
codepoint order agree). -/
def ltStr : Str → Str → Bool
  | _, [] => false
  | [], _ :: _ => true
  | a :: as, b :: bs => if a < b then true else if b < a then false else ltStr as bs

theorem ltStr_irrefl (l : Str) : ltStr l l = false := by
  induction l with
  | nil => rfl
  | cons a as ih => simp [ltStr, ih]

theorem ltStr_trans : ∀ {a b c : Str}, ltStr a b = true → ltStr b c = true → ltStr a c = true := by
  intro a
  induction a with
  | nil =>
    intro b c hab hbc
    cases b with
    | nil => exact absurd hab (by simp [ltStr])
    | cons y ys =>
      cases c with
      | nil => exact absurd hbc (by simp [ltStr])
      | cons z zs => rfl
  | cons x xs ih =>
    intro b c hab hbc
    cases b with
    | nil => exact absurd hab (by simp [ltStr])
    | cons y ys =>
      cases c with
      | nil => exact absurd hbc (by simp [ltStr])
      | cons z zs =>
        simp only [ltStr] at hab hbc ⊢
        rcases lt_trichotomy x y with hxy | hxy | hxy
        · rcases lt_trichotomy y z with hyz | hyz | hyz
          · rw [if_pos (lt_trans hxy hyz)]
          · subst hyz; rw [if_pos hxy]
          · rw [if_neg (lt_asymm hyz), if_pos hyz] at hbc
            exact absurd hbc (by simp)
        · subst hxy
          rw [if_neg (lt_irrefl x), if_neg (lt_irrefl x)] at hab
          rcases lt_trichotomy x z with hxz | hxz | hxz
          · rw [if_pos hxz]
          · subst hxz
            rw [if_neg (lt_irrefl x), if_neg (lt_irrefl x)] at hbc ⊢
            exact ih hab hbc
          · rw [if_neg (lt_asymm hxz), if_pos hxz] at hbc
            exact absurd hbc (by simp)
        · rw [if_neg (lt_asymm hxy), if_pos hxy] at hab
          exact absurd hab (by simp)

theorem ltStr_connex : ∀ {a b : Str}, a ≠ b → ltStr a b = true ∨ ltStr b a = true := by
  intro a
  induction a with
  | nil =>
    intro b hne
    cases b with
    | nil => exact absurd rfl hne
    | cons y ys => left; rfl
  | cons x xs ih =>
    intro b hne
    cases b with
    | nil => right; rfl
    | cons y ys =>
      rcases lt_trichotomy x y with hxy | hxy | hxy
      · left; simp [ltStr, hxy]
      · subst hxy
        have hne' : xs ≠ ys := by
          intro h; exact hne (by rw [h])
        rcases ih hne' with h | h
        · left; simp [ltStr, h, lt_irrefl]
        · right; simp [ltStr, h, lt_irrefl]
      · right; simp [ltStr, hxy]

theorem ltStr_ne {a b : Str} (h : ltStr a b = true) : a ≠ b := by
  intro heq
  subst heq
  rw [ltStr_irrefl] at h
  cases h

/-! Association-list model of `HashMap<String, _>`: lookup of the first
matching key, insert-with-overwrite, and removal of the entry. -/

/-- Lookup in the association-list model of a `HashMap`. -/
def lookupKV {α : Type} (k : Str) : List (Str × α) → Option α
  | [] => none
  | (k', v) :: rest => if k' = k then some v else lookupKV k rest

/-- Insert-with-overwrite in the association-list model of a `HashMap`. -/
def insertKV {α : Type} (k : Str) (v : α) : List (Str × α) → List (Str × α)
  | [] => [(k, v)]
  | (k', v') :: rest => if k' = k then (k', v) :: rest else (k', v') :: insertKV k v rest

/-- Removal of a key in the association-list model of a `HashMap`. -/
def eraseKV {α : Type} (k : Str) : List (Str × α) → List (Str × α)
  | [] => []
  | (k', v') :: rest => if k' = k then rest else (k', v') :: eraseKV k rest

theorem lookupKV_insert_self {α : Type} (k : Str) (v : α) (l : List (Str × α)) :
    lookupKV k (insertKV k v l) = some v := by
  induction l with
  | nil => simp [insertKV, lookupKV]
  | cons p rest ih =>
    obtain ⟨k', v'⟩ := p
    by_cases h : k' = k
    · simp [insertKV, lookupKV, h]
    · simp [insertKV, lookupKV, h, ih]

theorem lookupKV_eq_none_iff {α : Type} (k : Str) (l : List (Str × α)) :
    lookupKV k l = none ↔ k ∉ l.map Prod.fst := by
  induction l with
  | nil => simp [lookupKV]
  | cons p rest ih =>
    obtain ⟨k', v'⟩ := p
    simp only [List.map_cons, List.mem_cons]
    by_cases h : k' = k
    · subst h
      simp only [lookupKV, if_pos rfl]
      constructor
      · intro h'; cases h'
      · intro h'; exact absurd (Or.inl trivial) h'
    · simp only [lookupKV, if_neg h, ih]
      constructor
      · intro hn
        rintro (rfl | hm)
        · exact h rfl
        · exact hn hm
      · intro hn hm
        exact hn (Or.inr hm)

theorem lookupKV_isSome_iff {α : Type} (k : Str) (l : List (Str × α)) :
    (lookupKV k l).isSome = true ↔ k ∈ l.map Prod.fst := by
  constructor
  · intro h
    by_contra hm
    rw [(lookupKV_eq_none_iff k l).mpr hm] at h
    cases h
  · intro hm
    rcases hop : lookupKV k l with _ | v
    · exact absurd hm ((lookupKV_eq_none_iff k l).mp hop)
    · rfl

theorem lookupKV_mem {α : Type} {k : Str} {v : α} {l : List (Str × α)}
    (h : lookupKV k l = some v) : k ∈ l.map Prod.fst := by
  rw [← lookupKV_isSome_iff, h]
  rfl

theorem map_fst_insertKV_of_notMem {α : Type} {k : Str} (v : α) {l : List (Str × α)}
    (h : k ∉ l.map Prod.fst) :
    (insertKV k v l).map Prod.fst = l.map Prod.fst ++ [k] := by
  induction l with
  | nil => simp [insertKV]
  | cons p rest ih =>
    obtain ⟨k', v'⟩ := p
    simp only [List.map_cons, List.mem_cons] at h
    push_neg at h
    have hne : k' ≠ k := Ne.symm h.1
    simp only [insertKV, if_neg hne, List.map_cons, ih h.2, List.cons_append]

/-- Removal of the first occurrence of a key from a key list (the effect of
`Vec::remove` at the key's position, and of `eraseKV` on the key column). -/
def eraseStr (k : Str) : List Str → List Str
  | [] => []
  | x :: rest => if x = k then rest else x :: eraseStr k rest

theorem map_fst_eraseKV {α : Type} (k : Str) (l : List (Str × α)) :
    (eraseKV k l).map Prod.fst = eraseStr k (l.map Prod.fst) := by
  induction l with
  | nil => simp [eraseKV, eraseStr]
  | cons p rest ih =>
    obtain ⟨k', v'⟩ := p
    by_cases h : k' = k
    · subst h
      simp only [eraseKV, List.map_cons, eraseStr]
      simp
    · simp only [eraseKV, List.map_cons, eraseStr, if_neg h, ih]

theorem eraseStr_cons_head (k : Str) (t : List Str) : eraseStr k (k :: t) = t := by
  simp [eraseStr]

theorem eraseStr_sublist (k : Str) : ∀ l : List Str, (eraseStr k l).Sublist l := by
  intro l
  induction l with
  | nil => simp [eraseStr]
  | cons x t ih =>
    by_cases h : x = k
    · simp only [eraseStr, if_pos h]
      exact List.sublist_cons_self x t
    · simp only [eraseStr, if_neg h]
      exact ih.cons₂ x

theorem perm_eraseStr {k : Str} : ∀ {l₁ l₂ : List Str}, l₁.Perm l₂ →
    (eraseStr k l₁).Perm (eraseStr k l₂) := by
  intro l₁ l₂ h
  induction h with
  | nil => rfl
  | cons x h ih =>
    by_cases hx : x = k
    · simpa [eraseStr, hx] using h
    · simpa [eraseStr, hx] using ih.cons x
  | swap x y l =>
    by_cases hy : y = k
    · by_cases hx : x = k
      · simp [eraseStr, hx, hy]
      · simp [eraseStr, hx, hy]
    · by_cases hx : x = k
      · simp [eraseStr, hx, hy]
      · simp only [eraseStr, if_neg hx, if_neg hy]
        exact List.Perm.swap x y (eraseStr k l)
  | trans h₁ h₂ ih₁ ih₂ => exact ih₁.trans ih₂

/-- Model of Rust `Iterator::position`. -/
def position {α : Type} (p : α → Bool) : List α → Option Nat
  | [] => none
  | a :: rest => if p a then some 0 else (position p rest).map (· + 1)

/-- Model of Rust `Vec::insert(n, a)` (also correct for `n` = length). -/
def insertAt {α : Type} (n : Nat) (a : α) (l : List α) : List α :=
  l.take n ++ a :: l.drop n

/-- Position used by the cache's sorted insert: the index of the first key
greater than `k`, or the length when there is none — mirroring
`list.iter().position(|x| x > &key).unwrap_or(list.len())`. -/
def findGt (k : Str) : List Str → Nat
  | [] => 0
  | x :: t => if ltStr k x then 0 else findGt k t + 1

theorem insertAt_zero {α : Type} (a : α) (l : List α) : insertAt 0 a l = a :: l := by
  simp [insertAt]

theorem insertAt_succ_cons {α : Type} (n : Nat) (a x : α) (t : List α) :
    insertAt (n + 1) a (x :: t) = x :: insertAt n a t := by
  simp [insertAt]

theorem insertAt_perm {α : Type} (n : Nat) (a : α) (l : List α) :
    (insertAt n a l).Perm (a :: l) := by
  have h : (l.take n ++ a :: l.drop n).Perm (a :: (l.take n ++ l.drop n)) := List.perm_middle
  rw [List.take_append_drop] at h
  exact h

theorem mem_insertAt {α : Type} {y a : α} {n : Nat} {l : List α} :
    y ∈ insertAt n a l ↔ y = a ∨ y ∈ l := by
  rw [(insertAt_perm n a l).mem_iff]
  simp

theorem pairwise_insertAt_findGt {k : Str} : ∀ {l : List Str},
    l.Pairwise (fun a b => ltStr a b = true) → (∀ x ∈ l, x ≠ k) →
    (insertAt (findGt k l) k l).Pairwise (fun a b => ltStr a b = true) := by
  intro l
  induction l with
  | nil =>
    intro _ _
    simp [findGt, insertAt_zero]
  | cons x t ih =>
    intro hp hne
    rw [List.pairwise_cons] at hp
    by_cases hlt : ltStr k x = true
    · simp only [findGt, if_pos hlt, insertAt_zero]
      rw [List.pairwise_cons]
      refine ⟨?_, List.pairwise_cons.mpr hp⟩
      intro y hy
      rcases List.mem_cons.mp hy with h | h
      · exact h ▸ hlt
      · exact ltStr_trans hlt (hp.1 y h)
    · have hxk : ltStr x k = true := by
        rcases ltStr_connex (Ne.symm (hne x (List.mem_cons_self x t))) with h | h
        · exact absurd h hlt
        · exact h
      simp only [findGt, if_neg hlt, insertAt_succ_cons]
      rw [List.pairwise_cons]
      constructor
      · intro y hy
        rcases mem_insertAt.mp hy with h | h
        · exact h ▸ hxk
        · exact hp.1 y h
      · exact ih hp.2 (fun y hy => hne y (List.mem_cons_of_mem x hy))

theorem eraseIdx_position_eq_erase {k : Str} : ∀ {l : List Str} {pos : Nat},
    position (fun x => x == k) l = some pos → l.eraseIdx pos = eraseStr k l := by
  intro l
  induction l with
  | nil => intro pos h; cases h
  | cons x t ih =>
    intro pos h
    by_cases hx : x = k
    · simp only [position, hx, beq_self_eq_true, if_pos] at h
      cases h
      simp [List.eraseIdx, eraseStr, hx]
    · have hbeq : (x == k) = false := beq_eq_false_iff_ne.mpr hx
      simp only [position, hbeq, Bool.false_eq_true, if_neg, not_false_iff] at h
      rcases Option.map_eq_some'.mp h with ⟨q, hq, hq'⟩
      subst hq'
      simp [List.eraseIdx, eraseStr, hx, ih hq]

/-! String helpers mirroring the Rust standard-library operations the
sources use: `split(c)`, `starts_with`, `ends_with` and `contains`. -/

/-- Model of Rust `str::split(sep)` for a one-character separator: the
result is always nonempty, and empty segments are preserved. -/
def splitOnChar (sep : Char) : Str → List Str
  | [] => [[]]
  | c :: rest =>
    match splitOnChar sep rest with
    | [] => [[]]
    | h :: t => if c = sep then [] :: h :: t else (c :: h) :: t

/-- Model of Rust `str::starts_with`. -/
def startsWithStr (pre l : Str) : Bool :=
  decide (pre.length ≤ l.length ∧ l.take pre.length = pre)

/-- Model of Rust `str::ends_with`. -/
def endsWithStr (suf l : Str) : Bool :=
  decide (suf.length ≤ l.length ∧ l.drop (l.length - suf.length) = suf)

/-- Model of Rust `str::contains` for a literal pattern. -/
def containsStr (needle : Str) : Str → Bool
  | [] => startsWithStr needle []
  | c :: t => startsWithStr needle (c :: t) || containsStr needle t

theorem splitOnChar_ne_nil (sep : Char) (l : Str) : splitOnChar sep l ≠ [] := by
  cases l with
  | nil => simp [splitOnChar]
  | cons c rest =>
    simp only [splitOnChar]
    rcases splitOnChar sep rest with _ | ⟨h, t⟩
    · simp
    · by_cases hc : c = sep <;> simp [hc]

theorem splitOnChar_no_sep {sep : Char} : ∀ {l : Str}, sep ∉ l → splitOnChar sep l = [l] := by
  intro l
  induction l with
  | nil => intro _; rfl
  | cons c rest ih =>
    intro h
    simp only [List.mem_cons] at h
    push_neg at h
    simp only [splitOnChar, ih h.2]
    rw [if_neg (Ne.symm h.1)]

theorem splitOnChar_append_sep {sep : Char} : ∀ {a : Str} (b : Str), sep ∉ a →
    splitOnChar sep (a ++ sep :: b) = a :: splitOnChar sep b := by
  intro a
  induction a with
  | nil =>
    intro b _
    simp only [List.nil_append, splitOnChar]
    rcases hs : splitOnChar sep b with _ | ⟨h, t⟩
    · exact absurd hs (splitOnChar_ne_nil sep b)
    · simp
  | cons c rest ih =>
    intro b h
    simp only [List.mem_cons] at h
    push_neg at h
    rw [List.cons_append]
    simp only [splitOnChar]
    rw [ih b h.2]
    simp [Ne.symm h.1]

theorem take_len_append {α : Type} (a b : List α) : (a ++ b).take a.length = a := by
  induction a with
  | nil => simp
  | cons x t ih => simp [ih]

theorem drop_len_append {α : Type} (a b : List α) : (a ++ b).drop a.length = b := by
  induction a with
  | nil => simp
  | cons x t ih => simp [ih]

/-! Embedding of the cache from quickleaf/src/quickleaf.rs; the cache in
memotree/src/cache.rs is the same data structure with identical `insert`,
`remove` and `list` logic, so one embedding covers both.  The enums
`Error`, `Filter`, `Order`, `StartAfter` and the struct `ListProps` are
taken from memotree/src/cache.rs, where they are defined inline. -/

/-- Error enum of the cache library (memotree/src/cache.rs lines 111-117). -/
inductive CacheError where
  | sortKeyNotFound
  | cacheAlreadyExists
  | sortKeyExists
  | tableAlreadyExists
  | keyNotFound
deriving DecidableEq, Repr

namespace Quickleaf

/-- Filter enum for `list` queries (memotree/src/cache.rs lines 138-143);
it lives in the `Quickleaf` namespace because the root name is taken by
the mathematical library. -/
inductive Filter where
  | startWith (s : Str)
  | endWith (s : Str)
  | startAndEndWith (s e : Str)
  | none
deriving DecidableEq, Repr

end Quickleaf

/-- Order enum for `list` queries. -/
inductive Order where
  | asc
  | desc
deriving DecidableEq, Repr

/-- StartAfter enum for `list` queries. -/
inductive StartAfter where
  | key (k : Str)
  | none
deriving DecidableEq, Repr

/-- ListProps struct for `list` queries. -/
structure ListProps where
  start_after_key : StartAfter
  filter : Quickleaf.Filter
  order : Order
  limit : Nat
deriving DecidableEq, Repr

/-- The cache state: `map` models the `HashMap<Key, V>`, `list` the sorted
`Vec<Key>`, `capacity` the bound (quickleaf/src/quickleaf.rs lines 10-19). -/
structure Quickleaf (V : Type) where
  map : List (Str × V)
  list : List Str
  capacity : Nat
deriving DecidableEq, Repr

/-- Constructor `Quickleaf::new(capacity)`. -/
def Quickleaf.new (V : Type) (capacity : Nat) : Quickleaf V :=
  { map := [], list := [], capacity := capacity }

/-- Eviction-and-placement part of `insert` (quickleaf.rs lines 45-57): when
the map is nonempty and full, `list.remove(0)` evicts the front key from
both structures (the empty-list branch is unreachable there, since Rust
would panic on `remove(0)`), then the key is placed at its sorted position
and stored in the map. -/
def Quickleaf.insertPlace {V : Type} (c : Quickleaf V) (key : Str) (value : V) : Quickleaf V :=
  let s :=
    if c.map.length ≠ 0 ∧ c.map.length = c.capacity then
      match c.list with
      | [] => (c.list, c.map)
      | first_key :: restL => (restL, eraseKV first_key c.map)
    else (c.list, c.map)
  { map := insertKV key value s.2,
    list := insertAt (findGt key s.1) key s.1,
    capacity := c.capacity }

/-- Method `insert` (quickleaf.rs lines 38-58).  The guard mirrors the
source literally: `if let Some(value) = self.map.get(&key) { if
value.eq(value) { return; } }` — the shadowed binding compares the stored
value with itself, which under a reflexive `PartialEq` is always true, so
any insert on an already-present key returns without changing anything. -/
def Quickleaf.insert {V : Type} [DecidableEq V] (c : Quickleaf V) (key : Str) (value : V) :
    Quickleaf V :=
  match lookupKV key c.map with
  | some stored => if stored = stored then c else Quickleaf.insertPlace c key value
  | none => Quickleaf.insertPlace c key value

/-- Method `get` (quickleaf.rs lines 69-71). -/
def Quickleaf.get {V : Type} (c : Quickleaf V) (key : Str) : Option V :=
  lookupKV key c.map

/-- Method `contains_key` (quickleaf.rs lines 109-111). -/
def Quickleaf.contains_key {V : Type} (c : Quickleaf V) (key : Str) : Bool :=
  (lookupKV key c.map).isSome

/-- Method `remove` (quickleaf.rs lines 85-94): position of the key in
`list`, removal from both structures, `KeyNotFound` when absent. -/
def Quickleaf.remove {V : Type} (c : Quickleaf V) (key : Str) :
    Except CacheError (Quickleaf V) :=
  match position (fun k => k == key) c.list with
  | some pos =>
    Except.ok { map := eraseKV key c.map, list := c.list.eraseIdx pos, capacity := c.capacity }
  | none => Except.error CacheError.keyNotFound

/-- Method `clear` (quickleaf.rs lines 96-99). -/
def Quickleaf.clear {V : Type} (c : Quickleaf V) : Quickleaf V :=
  { map := [], list := [], capacity := c.capacity }

/-- Method `len` (quickleaf.rs lines 101-103). -/
def Quickleaf.len {V : Type} (c : Quickleaf V) : Nat :=
  c.map.length

/-- Filter test applied to a key inside the `list` loop (quickleaf.rs lines
137-159): `starts_with` / `ends_with` on the key per the filter variant. -/
def filterMatch (f : Quickleaf.Filter) (k : Str) : Bool :=
  match f with
  | .startWith s => startsWithStr s k
  | .endWith s => endsWithStr s k
  | .startAndEndWith s e => startsWithStr s k && endsWithStr e k
  | .none => true

/-- The iteration loop shared by both order branches of `list`
(quickleaf.rs lines 136-169 and 185-218): walk the keys, keep the ones the
filter accepts pairing them with `map.get(k).unwrap()` (`none` at the
outer level models that unwrap panicking), count accepted items and stop
when the count reaches `limit` — checked after the push, so `limit = 0`
never stops the loop. -/
def listLoop {V : Type} (m : List (Str × V)) (f : Quickleaf.Filter) (limit : Nat) :
    List Str → Nat → Option (List (Str × V))
  | [], _ => some []
  | k :: rest, count =>
    if filterMatch f k then
      match lookupKV k m with
      | some v =>
        if count + 1 = limit then some [(k, v)]
        else (listLoop m f limit rest (count + 1)).map (fun l => (k, v) :: l)
      | none => none
    else listLoop m f limit rest count

/-- Method `list` (quickleaf.rs lines 113-223): resolve the start cursor in
the chosen direction (`SortKeyNotFound` when the cursor key is absent),
then run the loop over the remaining keys.  The outer `Option` is `none`
exactly when the loop would panic on `map.get(k).unwrap()`. -/
def Quickleaf.listQuery {V : Type} (c : Quickleaf V) (props : ListProps) :
    Option (Except CacheError (List (Str × V))) :=
  match props.order with
  | Order.asc =>
    match props.start_after_key with
    | StartAfter.key k =>
      match position (fun x => x == k) c.list with
      | some i => (listLoop c.map props.filter props.limit (c.list.drop (i + 1)) 0).map Except.ok
      | none => some (Except.error CacheError.sortKeyNotFound)
    | StartAfter.none => (listLoop c.map props.filter props.limit c.list 0).map Except.ok
  | Order.desc =>
    match props.start_after_key with
    | StartAfter.key k =>
      match position (fun x => x == k) c.list.reverse with
      | some i =>
        (listLoop c.map props.filter props.limit (c.list.reverse.drop (i + 1)) 0).map Except.ok
      | none => some (Except.error CacheError.sortKeyNotFound)
    | StartAfter.none => (listLoop c.map props.filter props.limit c.list.reverse 0).map Except.ok

/-! Well-formedness of a cache state: the key list is strictly ascending
and is a permutation of the map's key multiset.  `insert` and `remove`
preserve it; the claim about cache invariants follows. -/

/-- Pairwise strict ascent plus list/map key agreement. -/
def Quickleaf.wf {V : Type} (c : Quickleaf V) : Prop :=
  c.list.Pairwise (fun a b => ltStr a b = true) ∧ c.list.Perm (c.map.map Prod.fst)

theorem Quickleaf.wf_new (V : Type) (cap : Nat) : (Quickleaf.new V cap).wf := by
  constructor <;> simp [Quickleaf.new]

theorem Quickleaf.wf_insertPlace {V : Type} {c : Quickleaf V} (key : Str) (value : V)
    (hwf : c.wf) (habs : lookupKV key c.map = none) :
    (Quickleaf.insertPlace c key value).wf := by
  obtain ⟨hpair, hperm⟩ := hwf
  have hkeyNotMem : key ∉ c.map.map Prod.fst := (lookupKV_eq_none_iff key c.map).mp habs
  have hkeyNotList : key ∉ c.list := fun h => hkeyNotMem (hperm.mem_iff.mp h)
  by_cases hfull : c.map.length ≠ 0 ∧ c.map.length = c.capacity
  · -- eviction branch
    have hlen : c.list.length = (c.map.map Prod.fst).length := hperm.length_eq
    have hlistNe : c.list ≠ [] := by
      intro h
      rw [h] at hlen
      simp only [List.length_nil, List.length_map] at hlen
      exact hfull.1 hlen.symm
    rcases hl : c.list with _ | ⟨f, t⟩
    · exact absurd hl hlistNe
    · rw [hl] at hperm hpair hkeyNotList
      have hpermT : t.Perm (eraseStr f (c.map.map Prod.fst)) := by
        have h1 : (eraseStr f (f :: t)).Perm (eraseStr f (c.map.map Prod.fst)) :=
          perm_eraseStr hperm
        rw [eraseStr_cons_head] at h1
        exact h1
      have hpermT' : t.Perm ((eraseKV f c.map).map Prod.fst) := by
        rw [map_fst_eraseKV]
        exact hpermT
      have hpairT : t.Pairwise (fun a b => ltStr a b = true) := (List.pairwise_cons.mp hpair).2
      have hkeyNotT : key ∉ t := fun h => hkeyNotList (List.mem_cons_of_mem f h)
      have hkeyNotErased : key ∉ (eraseKV f c.map).map Prod.fst := by
        intro h
        exact hkeyNotT (hpermT'.mem_iff.mpr h)
      constructor
      · simp only [Quickleaf.insertPlace, if_pos hfull, hl]
        exact pairwise_insertAt_findGt hpairT (fun x hx => fun he => hkeyNotT (he ▸ hx))
      · simp only [Quickleaf.insertPlace, if_pos hfull, hl]
        have h2 : (insertAt (findGt key t) key t).Perm (key :: t) := insertAt_perm _ _ _
        have h3 : (insertKV key value (eraseKV f c.map)).map Prod.fst
            = (eraseKV f c.map).map Prod.fst ++ [key] :=
          map_fst_insertKV_of_notMem value hkeyNotErased
        rw [h3]
        refine h2.trans ?_
        refine List.Perm.trans ?_ (List.perm_append_singleton key _).symm
        exact List.Perm.cons key hpermT'
  · constructor
    · simp only [Quickleaf.insertPlace, if_neg hfull]
      exact pairwise_insertAt_findGt hpair (fun x hx => fun he => hkeyNotList (he ▸ hx))
    · simp only [Quickleaf.insertPlace, if_neg hfull]
      have h2 : (insertAt (findGt key c.list) key c.list).Perm (key :: c.list) :=
        insertAt_perm _ _ _
      have h3 : (insertKV key value c.map).map Prod.fst = c.map.map Prod.fst ++ [key] :=
        map_fst_insertKV_of_notMem value hkeyNotMem
      rw [h3]
      refine h2.trans ?_
      refine List.Perm.trans ?_ (List.perm_append_singleton key _).symm
      exact List.Perm.cons key hperm

theorem Quickleaf.wf_insert {V : Type} [DecidableEq V] {c : Quickleaf V} (key : Str) (value : V)
    (hwf : c.wf) : (c.insert key value).wf := by
  unfold Quickleaf.insert
  rcases hlook : lookupKV key c.map with _ | stored
  · exact Quickleaf.wf_insertPlace key value hwf hlook
  · simp only [if_pos rfl]
    exact hwf

theorem Quickleaf.wf_remove {V : Type} {c c' : Quickleaf V} {key : Str}
    (hwf : c.wf) (h : c.remove key = Except.ok c') : c'.wf := by
  obtain ⟨hpair, hperm⟩ := hwf
  unfold Quickleaf.remove at h
  rcases hpos : position (fun k => k == key) c.list with _ | pos
  · rw [hpos] at h
    cases h
  · rw [hpos] at h
    injection h with h
    subst h
    constructor
    · simp only
      rw [eraseIdx_position_eq_erase hpos]
      exact hpair.sublist (eraseStr_sublist key c.list)
    · simp only
      rw [eraseIdx_position_eq_erase hpos, map_fst_eraseKV]
      exact perm_eraseStr hperm

/-- Number of occurrences of a key in a key list. -/
def countStr (k : Str) (l : List Str) : Nat :=
  (l.filter (fun x => x = k)).length

theorem countStr_eq_zero {k : Str} : ∀ {l : List Str}, k ∉ l → countStr k l = 0 := by
  intro l
  induction l with
  | nil => intro _; rfl
  | cons x t ih =>
    intro h
    simp only [List.mem_cons] at h
    push_neg at h
    simp only [countStr, List.filter_cons, decide_eq_true_eq]
    rw [if_neg (by simpa using Ne.symm h.1)]
    exact ih h.2

theorem countStr_eq_one {k : Str} : ∀ {l : List Str}, l.Nodup → k ∈ l → countStr k l = 1 := by
  intro l
  induction l with
  | nil => intro _ h; cases h
  | cons x t ih =>
    intro hd hm
    rw [List.nodup_cons] at hd
    rcases List.mem_cons.mp hm with rfl | hm'
    · have h0 : countStr k t = 0 := countStr_eq_zero hd.1
      simp only [countStr, List.filter_cons] at h0 ⊢
      simp [h0]
    · have hne : x ≠ k := by
        intro he
        exact hd.1 (he ▸ hm')
      simp only [countStr, List.filter_cons, decide_eq_true_eq]
      rw [if_neg (by simpa using hne)]
      exact ih hd.2 hm'

/-- One mutation of the cache: an `insert(key, value)` or a `remove(key)`
call (a failing `remove` leaves the state unchanged, as in the source
where the `Err` is simply returned). -/
inductive CacheOp (V : Type) where
  | ins (k : Str) (v : V)
  | rem (k : Str)

/-- Application of one operation to a cache state. -/
def applyOp {V : Type} [DecidableEq V] (c : Quickleaf V) : CacheOp V → Quickleaf V
  | CacheOp.ins k v => c.insert k v
  | CacheOp.rem k =>
    match c.remove k with
    | Except.ok c' => c'
    | Except.error _ => c

/-- Application of a whole operation sequence, oldest first. -/
def applyOps {V : Type} [DecidableEq V] (c : Quickleaf V) (ops : List (CacheOp V)) : Quickleaf V :=
  ops.foldl applyOp c

theorem Quickleaf.wf_applyOp {V : Type} [DecidableEq V] {c : Quickleaf V} (op : CacheOp V)
    (hwf : c.wf) : (applyOp c op).wf := by
  cases op with
  | ins k v => exact Quickleaf.wf_insert k v hwf
  | rem k =>
    simp only [applyOp]
    rcases hr : c.remove k with e | c'
    · exact hwf
    · exact Quickleaf.wf_remove hwf hr

theorem Quickleaf.wf_applyOps {V : Type} [DecidableEq V] :
    ∀ (ops : List (CacheOp V)) {c : Quickleaf V}, c.wf → (applyOps c ops).wf := by
  intro ops
  induction ops with
  | nil => intro c hwf; exact hwf
  | cons op rest ih =>
    intro c hwf
    exact ih (Quickleaf.wf_applyOp op hwf)

/-- C7: after any sequence of `insert` and `remove` operations starting from
an empty cache, the key list is strictly ascending (pairwise `ltStr`, i.e.
`list[i-1] < list[i]` for every i), the number of list entries equals the
number of map entries, and every listed key occurs in the map's key column
exactly once. -/
theorem cache_invariant_ops {V : Type} [DecidableEq V] (cap : Nat) (ops : List (CacheOp V)) :
    (applyOps (Quickleaf.new V cap) ops).list.Pairwise (fun a b => ltStr a b = true) ∧
    (applyOps (Quickleaf.new V cap) ops).list.length
      = (applyOps (Quickleaf.new V cap) ops).map.length ∧
    ∀ k ∈ (applyOps (Quickleaf.new V cap) ops).list,
      countStr k ((applyOps (Quickleaf.new V cap) ops).map.map Prod.fst) = 1 := by
  obtain ⟨hpair, hperm⟩ := Quickleaf.wf_applyOps ops (Quickleaf.wf_new V cap)
  refine ⟨hpair, ?_, ?_⟩
  · have h := hperm.length_eq
    rw [List.length_map] at h
    exact h
  · intro k hk
    have hnodupList : (applyOps (Quickleaf.new V cap) ops).list.Nodup :=
      hpair.imp (fun h => ltStr_ne h)
    have hnodupMap : ((applyOps (Quickleaf.new V cap) ops).map.map Prod.fst).Nodup :=
      hperm.nodup hnodupList
    exact countStr_eq_one hnodupMap (hperm.mem_iff.mp hk)

/-- C7 witness: a concrete run of four operations, with the invariant
consequences evaluated on the resulting state. -/
theorem cache_invariant_ops_witness :
    countStr "a".toList
      ((applyOps (Quickleaf.new Int 2)
        [CacheOp.ins "b".toList 1, CacheOp.ins "a".toList 2,
         CacheOp.rem "b".toList, CacheOp.ins "c".toList 3]).map.map Prod.fst) = 1 :=
  (cache_invariant_ops 2
    [CacheOp.ins "b".toList 1, CacheOp.ins "a".toList 2,
     CacheOp.rem "b".toList, CacheOp.ins "c".toList 3]).2.2 "a".toList (by decide)

/-- C1: evaluation of `insert` at the failing input.  The source guard
`if let Some(value) = self.map.get(&key) { if value.eq(value) { return; } }`
compares the stored value with itself, so inserting `("a", 2)` over an
existing `("a", 1)` is a no-op and `get("a")` still returns 1, where the
claim (and the library's own doc comment, memotree/src/cache.rs line 64)
says the stored value becomes the new one. -/
theorem insert_existing_key_keeps_old_value :
    (((Quickleaf.new Int 10).insert "a".toList 1).insert "a".toList 2).get "a".toList = some 1 ∧
    (1 : Int) ≠ 2 := by
  decide

/-- C5 counterexample: with capacity 1, inserting the larger key "b" first
and the smaller key "a" second leaves the cache holding only "a" — the
smaller of the two keys — refuting the claim that either insertion order
keeps the larger key. -/
theorem capacity_one_counterexample :
    (((Quickleaf.new Int 1).insert "b".toList 2).insert "a".toList 1).get "a".toList = some 1 ∧
    (((Quickleaf.new Int 1).insert "b".toList 2).insert "a".toList 1).get "b".toList = none ∧
    ltStr "a".toList "b".toList = true := by
  decide

/-- C5 (amended): with capacity 1, inserting two distinct keys — in either
order — leaves the cache containing exactly the SECOND-inserted key,
because the insert that would exceed capacity evicts `list[0]` (the only,
hence smallest, existing key) before placing the new one; the larger key
survives only when the keys arrive in ascending order. -/
theorem capacity_one_amended {V : Type} [DecidableEq V] (k1 k2 : Str) (v1 v2 : V)
    (h : k1 ≠ k2) :
    (((Quickleaf.new V 1).insert k1 v1).insert k2 v2).list = [k2] ∧
    (((Quickleaf.new V 1).insert k1 v1).insert k2 v2).map = [(k2, v2)] ∧
    (((Quickleaf.new V 1).insert k1 v1).insert k2 v2).get k1 = none := by
  have h1 : (Quickleaf.new V 1).insert k1 v1
      = { map := [(k1, v1)], list := [k1], capacity := 1 } := rfl
  rw [h1]
  have h2 : ({ map := [(k1, v1)], list := [k1], capacity := 1 } : Quickleaf V).insert k2 v2
      = { map := [(k2, v2)], list := [k2], capacity := 1 } := by
    simp only [Quickleaf.insert, lookupKV, if_neg h]
    simp only [Quickleaf.insertPlace, eraseKV]
    simp [insertKV, insertAt, findGt]
  rw [h2]
  refine ⟨rfl, rfl, ?_⟩
  simp only [Quickleaf.get, lookupKV, if_neg (Ne.symm h)]

/-- C5 witness: the amended statement applied at capacity 1 with keys "b"
then "a". -/
theorem capacity_one_amended_witness :
    (((Quickleaf.new Int 1).insert "b".toList 2).insert "a".toList 1).list = ["a".toList] :=
  (capacity_one_amended "b".toList "a".toList 2 1 (by decide)).1

/-! The `list` query: characterizing the loop as filter-then-take over the
traversal sequence. -/

/-- Pairing of keys with their map values, dropping keys whose lookup fails
(it never does under the hypotheses used below). -/
def pairUp {V : Type} (m : List (Str × V)) (ks : List Str) : List (Str × V) :=
  ks.filterMap (fun k => (lookupKV k m).map (fun v => (k, v)))

theorem pairUp_map_fst {V : Type} (m : List (Str × V)) : ∀ {ks : List Str},
    (∀ k ∈ ks, (lookupKV k m).isSome) → (pairUp m ks).map Prod.fst = ks := by
  intro ks
  induction ks with
  | nil => intro _; rfl
  | cons k rest ih =>
    intro h
    have hk := h k (List.mem_cons_self k rest)
    rcases hv : lookupKV k m with _ | v
    · rw [hv] at hk; cases hk
    · have ihr := ih (fun x hx => h x (List.mem_cons_of_mem k hx))
      simp only [pairUp] at ihr
      simp only [pairUp, List.filterMap_cons, hv, Option.map_some', List.map_cons, ihr]

theorem listLoop_limit_zero {V : Type} (m : List (Str × V)) (f : Quickleaf.Filter) :
    ∀ (ks : List Str) (count : Nat),
    (∀ k ∈ ks, filterMatch f k = true → (lookupKV k m).isSome) →
    listLoop m f 0 ks count = some (pairUp m (ks.filter (filterMatch f))) := by
  intro ks
  induction ks with
  | nil => intro count _; rfl
  | cons k rest ih =>
    intro count h
    by_cases hf : filterMatch f k = true
    · have hk := h k (List.mem_cons_self k rest) hf
      rcases hv : lookupKV k m with _ | v
      · rw [hv] at hk; cases hk
      · simp only [listLoop, if_pos hf, hv, Nat.succ_ne_zero, if_neg (Nat.succ_ne_zero count)]
        rw [ih (count + 1) (fun x hx hfx => h x (List.mem_cons_of_mem k hx) hfx)]
        simp only [Option.map_some']
        simp only [List.filter_cons, hf, if_pos]
        simp [pairUp, List.filterMap_cons, hv]
    · simp only [listLoop, if_neg hf]
      rw [ih count (fun x hx hfx => h x (List.mem_cons_of_mem k hx) hfx)]
      simp only [List.filter_cons]
      rw [if_neg (by simpa using hf)]

theorem listLoop_limit_pos {V : Type} (m : List (Str × V)) (f : Quickleaf.Filter) {limit : Nat} :
    ∀ (ks : List Str) (count : Nat), count < limit →
    (∀ k ∈ ks, filterMatch f k = true → (lookupKV k m).isSome) →
    listLoop m f limit ks count
      = some (pairUp m ((ks.filter (filterMatch f)).take (limit - count))) := by
  intro ks
  induction ks with
  | nil => intro count _ _; simp [listLoop, pairUp]
  | cons k rest ih =>
    intro count hc h
    by_cases hf : filterMatch f k = true
    · have hk := h k (List.mem_cons_self k rest) hf
      rcases hv : lookupKV k m with _ | v
      · rw [hv] at hk; cases hk
      · simp only [listLoop, if_pos hf, hv]
        by_cases hstop : count + 1 = limit
        · rw [if_pos hstop]
          have htake : limit - count = 1 := by omega
          simp only [List.filter_cons, hf, if_pos, htake, List.take_succ_cons, List.take_zero]
          simp [pairUp, List.filterMap_cons, hv]
        · rw [if_neg hstop]
          have hc' : count + 1 < limit := by omega
          rw [ih (count + 1) hc' (fun x hx hfx => h x (List.mem_cons_of_mem k hx) hfx)]
          have harith : limit - count = (limit - (count + 1)) + 1 := by omega
          simp only [List.filter_cons, hf, if_pos, harith, List.take_succ_cons]
          simp [pairUp, List.filterMap_cons, hv]
    · simp only [listLoop, if_neg hf]
      rw [ih count hc (fun x hx hfx => h x (List.mem_cons_of_mem k hx) hfx)]
      simp only [List.filter_cons]
      rw [if_neg (by simpa using hf)]

/-- Declarative description of the key sequence that the `list` loop walks:
the sorted key list (reversed for `Desc`), after the cursor position when a
`start_after` key is given (`none` when the cursor key is absent).  Used
only to state the theorems about `listQuery`. -/
def listTraversalKeys {V : Type} (c : Quickleaf V) (props : ListProps) : Option (List Str) :=
  match props.order with
  | Order.asc =>
    match props.start_after_key with
    | StartAfter.key k => (position (fun x => x == k) c.list).map (fun i => c.list.drop (i + 1))
    | StartAfter.none => some c.list
  | Order.desc =>
    match props.start_after_key with
    | StartAfter.key k =>
      (position (fun x => x == k) c.list.reverse).map (fun i => c.list.reverse.drop (i + 1))
    | StartAfter.none => some c.list.reverse

theorem pairUp_length {V : Type} (m : List (Str × V)) : ∀ {ks : List Str},
    (∀ k ∈ ks, (lookupKV k m).isSome) → (pairUp m ks).length = ks.length := by
  intro ks
  induction ks with
  | nil => intro _; rfl
  | cons k rest ih =>
    intro h
    have hk := h k (List.mem_cons_self k rest)
    rcases hv : lookupKV k m with _ | v
    · rw [hv] at hk; cases hk
    · have ihr := ih (fun x hx => h x (List.mem_cons_of_mem k hx))
      simp only [pairUp] at ihr
      simp only [pairUp, List.filterMap_cons, hv, Option.map_some', List.length_cons, ihr]

/-- C4 (amended): whenever `list(props)` succeeds on a cache whose listed
keys all resolve in the map, the returned keys are exactly the traversal
sequence filtered by the props filter and — only when `limit` is nonzero —
capped at `limit` items; `limit = 0` imposes NO cap (the loop's stop test
`count == limit` is checked after a push, so it never fires at zero) and
every matching entry is returned. -/
theorem list_limit_amended {V : Type} (c : Quickleaf V) (props : ListProps)
    (r : List (Str × V))
    (hwf : ∀ k ∈ c.list, (lookupKV k c.map).isSome)
    (hr : c.listQuery props = some (Except.ok r)) :
    ∃ keys, listTraversalKeys c props = some keys ∧
      r.map Prod.fst = (if props.limit = 0 then keys.filter (filterMatch props.filter)
        else (keys.filter (filterMatch props.filter)).take props.limit) ∧
      (props.limit ≠ 0 → r.length ≤ props.limit) := by
  obtain ⟨sa, f, ord, lim⟩ := props
  have main : ∀ keys : List Str, (∀ k ∈ keys, k ∈ c.list) →
      listLoop c.map f lim keys 0 = some r →
      r.map Prod.fst = (if lim = 0 then keys.filter (filterMatch f)
        else (keys.filter (filterMatch f)).take lim) ∧
      (lim ≠ 0 → r.length ≤ lim) := by
    intro keys hsub hloop
    have hks : ∀ k ∈ keys, filterMatch f k = true → (lookupKV k c.map).isSome :=
      fun k hk _ => hwf k (hsub k hk)
    have hfs : ∀ k ∈ keys.filter (filterMatch f), (lookupKV k c.map).isSome :=
      fun k hk => hwf k (hsub k (List.mem_of_mem_filter hk))
    by_cases hz : lim = 0
    · subst hz
      rw [listLoop_limit_zero c.map f keys 0 hks] at hloop
      injection hloop with hloop
      subst hloop
      exact ⟨by rw [if_pos rfl]; exact pairUp_map_fst c.map hfs,
        fun h0 => absurd rfl h0⟩
    · have hpos : 0 < lim := Nat.pos_of_ne_zero hz
      rw [listLoop_limit_pos c.map f keys 0 hpos hks] at hloop
      injection hloop with hloop
      subst hloop
      rw [if_neg hz, Nat.sub_zero]
      have hfs' : ∀ k ∈ (keys.filter (filterMatch f)).take lim,
          (lookupKV k c.map).isSome :=
        fun k hk => hfs k (List.mem_of_mem_take hk)
      refine ⟨pairUp_map_fst c.map hfs', fun _ => ?_⟩
      rw [pairUp_length c.map hfs', List.length_take]
      exact Nat.min_le_left _ _
  cases ord with
  | asc =>
    cases sa with
    | key k =>
      simp only [Quickleaf.listQuery] at hr
      rcases hp : position (fun x => x == k) c.list with _ | i
      · rw [hp] at hr
        injection hr with hr
        cases hr
      · rw [hp] at hr
        rcases Option.map_eq_some'.mp hr with ⟨a, ha, hok⟩
        injection hok with hok
        subst hok
        refine ⟨c.list.drop (i + 1), by simp [listTraversalKeys, hp], ?_⟩
        exact main (c.list.drop (i + 1)) (fun x hx => List.mem_of_mem_drop hx) ha
    | none =>
      simp only [Quickleaf.listQuery] at hr
      rcases Option.map_eq_some'.mp hr with ⟨a, ha, hok⟩
      injection hok with hok
      subst hok
      exact ⟨c.list, by simp [listTraversalKeys], main c.list (fun x hx => hx) ha⟩
  | desc =>
    cases sa with
    | key k =>
      simp only [Quickleaf.listQuery] at hr
      rcases hp : position (fun x => x == k) c.list.reverse with _ | i
      · rw [hp] at hr
        injection hr with hr
        cases hr
      · rw [hp] at hr
        rcases Option.map_eq_some'.mp hr with ⟨a, ha, hok⟩
        injection hok with hok
        subst hok
        refine ⟨c.list.reverse.drop (i + 1), by simp [listTraversalKeys, hp], ?_⟩
        refine main (c.list.reverse.drop (i + 1)) (fun x hx => ?_) ha
        exact List.mem_reverse.mp (List.mem_of_mem_drop hx)
    | none =>
      simp only [Quickleaf.listQuery] at hr
      rcases Option.map_eq_some'.mp hr with ⟨a, ha, hok⟩
      injection hok with hok
      subst hok
      refine ⟨c.list.reverse, by simp [listTraversalKeys], ?_⟩
      exact main c.list.reverse (fun x hx => List.mem_reverse.mp hx) ha

/-- C4 counterexample: a one-entry cache queried with `limit = 0` returns
that entry, not the empty list the claim requires for `limit = 0`. -/
theorem list_limit_counterexample :
    ((Quickleaf.new Int 5).insert "a".toList 1).listQuery
        { start_after_key := StartAfter.none, filter := Quickleaf.Filter.none,
          order := Order.asc, limit := 0 }
      = some (Except.ok [("a".toList, 1)]) ∧
    ("a".toList, (1 : Int)) ∈ [("a".toList, (1 : Int))] := by
  exact ⟨rfl, by decide⟩

/-- C4 witness: the amended statement applied to a one-entry cache with
limit 2. -/
theorem list_limit_amended_witness :
    ∃ keys, listTraversalKeys ((Quickleaf.new Int 5).insert "a".toList 1)
        { start_after_key := StartAfter.none, filter := Quickleaf.Filter.none,
          order := Order.asc, limit := 2 } = some keys ∧
      [("a".toList, (1 : Int))].map Prod.fst
        = (if (2 : Nat) = 0 then keys.filter (filterMatch Quickleaf.Filter.none)
          else (keys.filter (filterMatch Quickleaf.Filter.none)).take 2) ∧
      ((2 : Nat) ≠ 0 → [("a".toList, (1 : Int))].length ≤ 2) :=
  list_limit_amended ((Quickleaf.new Int 5).insert "a".toList 1)
    { start_after_key := StartAfter.none, filter := Quickleaf.Filter.none,
      order := Order.asc, limit := 2 }
    [("a".toList, 1)] (by decide) rfl

/-! Embedding of gitdis/src/branch_settings.rs: derivation of the branch
key from the repository URL and branch name. -/

/-- The BranchSettings struct (branch_settings.rs lines 1-8). -/
structure BranchSettings where
  url : Str
  branch_name : Str
  key : Str
  pull_request_interval_millis : Nat
  path_target : Option Str

/-- Function `crete_branch_key` (branch_settings.rs lines 28-42): split the
URL on '/', take the last segment up to its FIRST '.' as the repo name,
take the second-to-last segment — stripped to the part between its first
and second ':' when it contains a ':' — as the owner.  Rust's `Vec`
indexing panics when the URL has fewer than two '/'-separated segments
(`url.len() - 2` underflows); the `getD` defaults stand in for that region,
which no claim touches. -/
def crete_branch_key (url branch_name : Str) : Str :=
  let parts := splitOnChar '/' url
  let repo_name := (splitOnChar '.' (parts.getD (parts.length - 1) [])).getD 0 []
  let repo_owner :=
    let seg := parts.getD (parts.length - 2) []
    if ':' ∈ seg then (splitOnChar ':' seg).getD 1 [] else seg
  repo_owner ++ '/' :: (repo_name ++ '/' :: branch_name)

/-- Constructor `BranchSettings::new` (branch_settings.rs lines 11-26). -/
def BranchSettings.new (url branch_name : Str) (pull_request_interval_millis : Nat)
    (path_target : Option Str) : BranchSettings :=
  { url := url, branch_name := branch_name, key := crete_branch_key url branch_name,
    pull_request_interval_millis := pull_request_interval_millis, path_target := path_target }

theorem splitOnChar_last_two {sep : Char} {owner rest : Str} (howner : sep ∉ owner)
    (hrest : sep ∉ rest) : ∀ pre : Str,
    ∃ junk s, splitOnChar sep (pre ++ sep :: (owner ++ sep :: rest)) = junk ++ [s, owner, rest] := by
  have h1 : splitOnChar sep (owner ++ sep :: rest) = [owner, rest] := by
    rw [splitOnChar_append_sep rest howner, splitOnChar_no_sep hrest]
  intro pre
  induction pre with
  | nil =>
    refine ⟨[], [], ?_⟩
    simp only [List.nil_append, splitOnChar, h1]
    simp
  | cons c pre' ih =>
    obtain ⟨junk, s, hsplit⟩ := ih
    rw [List.cons_append]
    simp only [splitOnChar, hsplit]
    cases junk with
    | nil =>
      by_cases hc : c = sep
      · exact ⟨[[]], s, by simp [hc]⟩
      · exact ⟨[], c :: s, by simp [hc]⟩
    | cons j js =>
      by_cases hc : c = sep
      · exact ⟨[] :: j :: js, s, by simp [hc]⟩
      · exact ⟨(c :: j) :: js, s, by simp [hc]⟩

theorem getD_append_three {α : Type} (a b c d : α) : ∀ junk : List α,
    ((junk ++ [a, b, c]).getD (junk.length + 1) d = b) ∧
    ((junk ++ [a, b, c]).getD (junk.length + 2) d = c) := by
  intro junk
  induction junk with
  | nil => simp [List.getD]
  | cons x t ih => simpa [List.getD_cons_succ] using ih

/-- C3 counterexample: with repo name "a.b" (non-empty, no '/'), the URL
"https://github.com/acme/a.b.git" ends in "/acme/a.b.git", yet
`BranchSettings::new` derives the key "acme/a/main" — `split('.')` keeps
only the part before the FIRST dot — and not the claimed "acme/a.b/main". -/
theorem branch_key_counterexample :
    endsWithStr ("/acme/a.b.git".toList) ("https://github.com/acme/a.b.git".toList) = true ∧
    (BranchSettings.new ("https://github.com/acme/a.b.git".toList) ("main".toList)
        3000 Option.none).key = "acme/a/main".toList ∧
    ("acme/a/main".toList : Str) ≠ "acme/a.b/main".toList := by
  refine ⟨by decide, by decide, by decide⟩

/-- C3 (amended): for every branch name and every URL whose trailing
segments are `<owner>/<repo>.git` — as a bare URL, after any '/'-terminated
prefix, or in the scp-like form `user@host:<owner>/<repo>.git` — the
derived key is `"<owner>/<repo>/<branch>"`, provided additionally that
`repo` contains no '.' (the code keeps only the part of the last segment
before its first dot) and `owner`, `user` and `host` contain no ':' (the
code keeps only the part of the second-to-last segment between its first
and second colon when a colon is present). -/
theorem branch_key_amended (pre user host owner repo branch : Str)
    (hos : '/' ∉ owner) (hoc : ':' ∉ owner)
    (hrs : '/' ∉ repo) (hrd : '.' ∉ repo)
    (hus : '/' ∉ user) (huc : ':' ∉ user)
    (hhs : '/' ∉ host) (hhc : ':' ∉ host) :
    (BranchSettings.new (pre ++ '/' :: (owner ++ '/' :: (repo ++ ".git".toList)))
        branch 3000 Option.none).key = owner ++ '/' :: (repo ++ '/' :: branch) ∧
    (BranchSettings.new (owner ++ '/' :: (repo ++ ".git".toList))
        branch 3000 Option.none).key = owner ++ '/' :: (repo ++ '/' :: branch) ∧
    (BranchSettings.new (user ++ '@' :: (host ++ ':' :: (owner ++ '/' :: (repo ++ ".git".toList))))
        branch 3000 Option.none).key = owner ++ '/' :: (repo ++ '/' :: branch) := by
  have hrest : '/' ∉ repo ++ ".git".toList := by
    intro h
    rcases List.mem_append.mp h with h | h
    · exact hrs h
    · simp at h
  have hrepoName : (splitOnChar '.' (repo ++ ".git".toList)).getD 0 [] = repo := by
    have : repo ++ ".git".toList = repo ++ '.' :: "git".toList := rfl
    rw [this, splitOnChar_append_sep ("git".toList) hrd]
    rfl
  refine ⟨?_, ?_, ?_⟩
  · -- prefixed form
    obtain ⟨junk, s, hsplit⟩ := splitOnChar_last_two hos hrest pre
    have hlen : (junk ++ [s, owner, repo ++ ".git".toList]).length = junk.length + 3 := by
      simp
    obtain ⟨hgb, hgc⟩ := getD_append_three s owner (repo ++ ".git".toList) ([] : Str) junk
    simp only [BranchSettings.new, crete_branch_key, hsplit, hlen]
    have h1 : junk.length + 3 - 1 = junk.length + 2 := by omega
    have h2 : junk.length + 3 - 2 = junk.length + 1 := by omega
    rw [h1, h2, hgb, hgc, hrepoName, if_neg hoc]
  · -- bare form
    have hsplit : splitOnChar '/' (owner ++ '/' :: (repo ++ ".git".toList))
        = [owner, repo ++ ".git".toList] := by
      rw [splitOnChar_append_sep (repo ++ ".git".toList) hos, splitOnChar_no_sep hrest]
    have hrepoName' : ((splitOnChar '.' (repo ++ ".git".toList)).get? 0).getD [] = repo := by
      simpa [List.getD] using hrepoName
    simp only [BranchSettings.new, crete_branch_key, hsplit]
    simp only [List.length_cons, List.length_nil]
    rw [show (0 + 1 + 1 - 1 : Nat) = 1 from rfl, show (0 + 1 + 1 - 2 : Nat) = 0 from rfl]
    simp only [List.getD, List.get?, Option.getD_some]
    rw [hrepoName', if_neg hoc]
  · -- scp-like form
    have hseg_slash : '/' ∉ user ++ '@' :: (host ++ ':' :: owner) := by
      intro h
      rcases List.mem_append.mp h with h | h
      · exact hus h
      · rcases List.mem_cons.mp h with h | h
        · cases h
        · rcases List.mem_append.mp h with h | h
          · exact hhs h
          · rcases List.mem_cons.mp h with h | h
            · cases h
            · exact hos h
    have hurl : user ++ '@' :: (host ++ ':' :: (owner ++ '/' :: (repo ++ ".git".toList)))
        = (user ++ '@' :: (host ++ ':' :: owner)) ++ '/' :: (repo ++ ".git".toList) := by
      simp
    have hsplit : splitOnChar '/'
        ((user ++ '@' :: (host ++ ':' :: owner)) ++ '/' :: (repo ++ ".git".toList))
        = [user ++ '@' :: (host ++ ':' :: owner), repo ++ ".git".toList] := by
      rw [splitOnChar_append_sep (repo ++ ".git".toList) hseg_slash, splitOnChar_no_sep hrest]
    have hcolon_mem : ':' ∈ user ++ '@' :: (host ++ ':' :: owner) := by
      refine List.mem_append.mpr (Or.inr ?_)
      refine List.mem_cons.mpr (Or.inr ?_)
      exact List.mem_append.mpr (Or.inr (List.mem_cons.mpr (Or.inl rfl)))
    have hseg_eq : user ++ '@' :: (host ++ ':' :: owner)
        = (user ++ '@' :: host) ++ ':' :: owner := by
      simp
    have hnc : ':' ∉ user ++ '@' :: host := by
      intro h
      rcases List.mem_append.mp h with h | h
      · exact huc h
      · rcases List.mem_cons.mp h with h | h
        · cases h
        · exact hhc h
    have hsegsplit : splitOnChar ':' (user ++ '@' :: (host ++ ':' :: owner))
        = [user ++ '@' :: host, owner] := by
      rw [hseg_eq, splitOnChar_append_sep owner hnc, splitOnChar_no_sep hoc]
    have hrepoName' : ((splitOnChar '.' (repo ++ ".git".toList)).get? 0).getD [] = repo := by
      simpa [List.getD] using hrepoName
    simp only [BranchSettings.new, crete_branch_key, hurl, hsplit]
    simp only [List.length_cons, List.length_nil]
    rw [show (0 + 1 + 1 - 1 : Nat) = 1 from rfl, show (0 + 1 + 1 - 2 : Nat) = 0 from rfl]
    simp only [List.getD, List.get?, Option.getD_some]
    rw [hrepoName', if_pos hcolon_mem, hsegsplit]
    rfl

/-- C3 witness: the amended statement applied at the URLs
"https://github.com/acme/demo.git" and "git@github.com:acme/demo.git" with
branch "main". -/
theorem branch_key_amended_witness :
    (BranchSettings.new ("https:/".toList ++ '/' :: ("github.com".toList ++ '/'
          :: ("acme".toList ++ '/' :: ("demo".toList ++ ".git".toList))))
        "main".toList 3000 Option.none).key
      = "acme".toList ++ '/' :: ("demo".toList ++ '/' :: "main".toList) ∧
    (BranchSettings.new ("git".toList ++ '@' :: ("github.com".toList ++ ':'
          :: ("acme".toList ++ '/' :: ("demo".toList ++ ".git".toList))))
        "main".toList 3000 Option.none).key
      = "acme".toList ++ '/' :: ("demo".toList ++ '/' :: "main".toList) := by
  have h := branch_key_amended ("https://github.com".toList) "git".toList "github.com".toList
    "acme".toList "demo".toList "main".toList
    (by decide) (by decide) (by decide) (by decide) (by decide) (by decide) (by decide) (by decide)
  exact ⟨h.1, h.2.2⟩

/-! Embedding of gitdis/src/payload.rs: the dynamic `Value` model, the
extension-dispatching decoder `parse_value`, the flattener
`value_to_mapper`, its entry point `to_value`, and `is_valid_file`. -/

/-- The dynamic document value (the valu3 `Value` used by the sources).
`Object` is modelled as an association list — its order stands for the
unspecified `HashMap` iteration order — and `Number` as an integer; the
variants not exercised by the sources are omitted. -/
inductive Value where
  | null
  | undefined
  | boolean (b : Bool)
  | number (n : Int)
  | str (s : Str)
  | array (items : List Value)
  | object (entries : List (Str × Value))

/-- RefType enum (payload.rs lines 19-23). -/
inductive RefType where
  | object
  | array
deriving DecidableEq, Repr

/-- Ref struct (payload.rs lines 25-29): the kind of a container and the
dotted keys of its immediate members. -/
structure Ref where
  ref_type : RefType
  items : List Str
deriving Repr

/-- Extension constants EXT_JSON / EXT_YML / EXT_YAML (payload.rs lines 5-7). -/
def EXT_JSON : Str := ".json".toList

def EXT_YML : Str := ".yml".toList

def EXT_YAML : Str := ".yaml".toList

/-- Function `parse_value` (payload.rs lines 9-17), parameterized by the
external decoders (`Value::json_to_value` from the valu3 crate and
`serde_yaml::from_str`), whose failures — modelled as `none` — degrade to
`Value::Undefined` via `unwrap_or`.  Every path that matches no known
extension yields `Undefined`. -/
def parse_value (jd yd : Str → Option Value) (file content : Str) : Value :=
  if endsWithStr EXT_JSON file then (jd content).getD Value.undefined
  else if endsWithStr EXT_YML file || endsWithStr EXT_YAML file then
    (yd content).getD Value.undefined
  else Value.undefined

/-- Function `is_valid_file` (payload.rs lines 112-114): the path ends in
".json", ".yml" or ".yaml" — and in nothing else. -/
def is_valid_file (path : Str) : Bool :=
  endsWithStr EXT_JSON path || endsWithStr EXT_YML path || endsWithStr EXT_YAML path

/-- Digits of an array index, mirroring `index.to_string()`. -/
def natToStr (n : Nat) : Str :=
  (Nat.repr n).toList

mutual

/-- The recursive `flatten` closure inside `value_to_mapper` (payload.rs
lines 37-92): objects and arrays recurse into their members accumulating
the members' dotted keys, then record a `Ref` for the container at its own
prefix; every other variant is stored into the flat map at its prefix. -/
def flattenV (v : Value) (pre : Str) (mapper : List (Str × Value)) (refs : List (Str × Ref)) :
    List (Str × Value) × List (Str × Ref) :=
  match v with
  | Value.object entries =>
    let r := flattenObjEntries entries pre mapper refs
    (r.2.1, insertKV pre { ref_type := RefType.object, items := r.1 } r.2.2)
  | Value.array items =>
    let r := flattenArrItems items pre 0 mapper refs
    (r.2.1, insertKV pre { ref_type := RefType.array, items := r.1 } r.2.2)
  | leaf => (insertKV pre leaf mapper, refs)

/-- The object loop of `flatten` (payload.rs lines 44-64): for each member
`(k, v)` the new key is `k` when the prefix is empty and `prefix ++ "." ++ k`
otherwise; members are visited in iteration order. -/
def flattenObjEntries (entries : List (Str × Value)) (pre : Str)
    (mapper : List (Str × Value)) (refs : List (Str × Ref)) :
    List Str × (List (Str × Value) × List (Str × Ref)) :=
  match entries with
  | [] => ([], (mapper, refs))
  | (k, sv) :: rest =>
    let newKey := if pre = [] then k else pre ++ '.' :: k
    let r := flattenV sv newKey mapper refs
    let r2 := flattenObjEntries rest pre r.1 r.2
    (newKey :: r2.1, r2.2)

/-- The array loop of `flatten` (payload.rs lines 66-87): like the object
loop with the element index rendered as the key segment. -/
def flattenArrItems (items : List Value) (pre : Str) (idx : Nat)
    (mapper : List (Str × Value)) (refs : List (Str × Ref)) :
    List Str × (List (Str × Value) × List (Str × Ref)) :=
  match items with
  | [] => ([], (mapper, refs))
  | sv :: rest =>
    let newKey := if pre = [] then natToStr idx else pre ++ '.' :: natToStr idx
    let r := flattenV sv newKey mapper refs
    let r2 := flattenArrItems rest pre (idx + 1) r.1 r.2
    (newKey :: r2.1, r2.2)

end

/-- Function `value_to_mapper` (payload.rs lines 36-98): flatten from the
empty prefix into fresh maps and wrap the flat map back into a
`Value::Object` (`mapper.to_value()`). -/
def value_to_mapper (v : Value) : Value × List (Str × Ref) :=
  let r := flattenV v [] [] []
  (Value.object r.1, r.2)

/-- Function `to_value` (payload.rs lines 100-110) after the `parse_value`
call: wrap the decoded document in a one-entry object under the cache key
and flatten it. -/
def to_valueParsed (key : Str) (parsed : Value) : Value × List (Str × Ref) :=
  value_to_mapper (Value.object [(key, parsed)])

/-- Function `to_value` (payload.rs lines 100-110) in full, with the
external decoders passed through to `parse_value`. -/
def to_value (key : Str) (jd yd : Str → Option Value) (file content : Str) :
    Value × List (Str × Ref) :=
  to_valueParsed key (parse_value jd yd file content)

/-- Member access on an `Object` value (valu3 `Object::get`), as used by
the service layer. -/
def objGet (v : Value) (k : Str) : Option Value :=
  match v with
  | Value.object entries => lookupKV k entries
  | _ => none

theorem endsWith_xml_not_json {p : Str} (hx : endsWithStr ".xml".toList p = true) :
    endsWithStr EXT_JSON p = false := by
  by_contra hne
  have hj : endsWithStr EXT_JSON p = true := by
    cases h : endsWithStr EXT_JSON p
    · exact absurd h hne
    · rfl
  simp only [endsWithStr, EXT_JSON, decide_eq_true_eq] at hx hj
  obtain ⟨hx1, hx2⟩ := hx
  obtain ⟨hj1, hj2⟩ := hj
  have h4 : (".xml".toList : Str).length = 4 := by decide
  have h5 : (".json".toList : Str).length = 5 := by decide
  rw [h4] at hx1 hx2
  rw [h5] at hj1 hj2
  have hbad : (".xml".toList : Str) = "json".toList := by
    rw [← hx2]
    have hdd : p.drop (p.length - 4) = List.drop 1 (p.drop (p.length - 5)) := by
      rw [List.drop_drop]
      congr 1
      omega
    rw [hdd, hj2]
    decide
  exact absurd hbad (by decide)

theorem endsWith_xml_not_yml {p : Str} (hx : endsWithStr ".xml".toList p = true) :
    endsWithStr EXT_YML p = false := by
  by_contra hne
  have hy : endsWithStr EXT_YML p = true := by
    cases h : endsWithStr EXT_YML p
    · exact absurd h hne
    · rfl
  simp only [endsWithStr, EXT_YML, decide_eq_true_eq] at hx hy
  obtain ⟨hx1, hx2⟩ := hx
  obtain ⟨hy1, hy2⟩ := hy
  have h4 : (".xml".toList : Str).length = 4 := by decide
  have h4' : (".yml".toList : Str).length = 4 := by decide
  rw [h4] at hx1 hx2
  rw [h4'] at hy1 hy2
  have hbad : (".xml".toList : Str) = ".yml".toList := by rw [← hx2, hy2]
  exact absurd hbad (by decide)

theorem endsWith_xml_not_yaml {p : Str} (hx : endsWithStr ".xml".toList p = true) :
    endsWithStr EXT_YAML p = false := by
  by_contra hne
  have hy : endsWithStr EXT_YAML p = true := by
    cases h : endsWithStr EXT_YAML p
    · exact absurd h hne
    · rfl
  simp only [endsWithStr, EXT_YAML, decide_eq_true_eq] at hx hy
  obtain ⟨hx1, hx2⟩ := hx
  obtain ⟨hy1, hy2⟩ := hy
  have h4 : (".xml".toList : Str).length = 4 := by decide
  have h5 : (".yaml".toList : Str).length = 5 := by decide
  rw [h4] at hx1 hx2
  rw [h5] at hy1 hy2
  have hbad : (".xml".toList : Str) = "yaml".toList := by
    rw [← hx2]
    have hdd : p.drop (p.length - 4) = List.drop 1 (p.drop (p.length - 5)) := by
      rw [List.drop_drop]
      congr 1
      omega
    rw [hdd, hy2]
    decide
  exact absurd hbad (by decide)

/-- C6 counterexample: "config.xml" ends in ".xml", yet `is_valid_file`
classifies it as NOT valid — the code checks only ".json", ".yml" and
".yaml" — refuting the claim that a path is valid exactly when it ends in
one of ".json", ".yml", ".yaml" or ".xml". -/
theorem xml_valid_counterexample :
    endsWithStr ".xml".toList "config.xml".toList = true ∧
    is_valid_file "config.xml".toList = false := by
  decide

/-- C6 (amended): a path is valid exactly when it ends in ".json", ".yml"
or ".yaml"; a path ending in ".xml" is NOT valid — such files are ignored,
not stored — although `parse_value`, having no XML arm, would decode any
such path to `Value::Undefined` for every choice of decoders. -/
theorem xml_amended (p content : Str) (jd yd : Str → Option Value)
    (hx : endsWithStr ".xml".toList p = true) :
    is_valid_file p = (endsWithStr EXT_JSON p || endsWithStr EXT_YML p
      || endsWithStr EXT_YAML p) ∧
    is_valid_file p = false ∧
    parse_value jd yd p content = Value.undefined := by
  have hnj := endsWith_xml_not_json hx
  have hny := endsWith_xml_not_yml hx
  have hnya := endsWith_xml_not_yaml hx
  refine ⟨rfl, ?_, ?_⟩
  · simp [is_valid_file, hnj, hny, hnya]
  · simp [parse_value, hnj, hny, hnya]

/-- C6 witness: the amended statement applied at "config.xml" with empty
decoders. -/
theorem xml_amended_witness :
    is_valid_file "config.xml".toList = false ∧
    parse_value (fun _ => Option.none) (fun _ => Option.none)
      "config.xml".toList "x".toList = Value.undefined :=
  have h := xml_amended "config.xml".toList "x".toList
    (fun _ => Option.none) (fun _ => Option.none) (by decide)
  ⟨h.2.1, h.2.2⟩

/-- The literal document of the flatten-object scenario:
{"a":{"b":{"c":"hello"}}}. -/
def docFlattenExample : Value :=
  Value.object [("a".toList, Value.object [("b".toList,
    Value.object [("c".toList, Value.str "hello".toList)])])]

/-- C8: flattening {"a":{"b":{"c":"hello"}}} under root key "doc" stores
the string "hello" in the flat map at "doc.a.b.c", and the reference map
holds at "doc.a.b" an Object reference whose children are exactly
["doc.a.b.c"]. -/
theorem flatten_object_example :
    objGet (to_valueParsed "doc".toList docFlattenExample).1 "doc.a.b.c".toList
      = some (Value.str "hello".toList) ∧
    ∃ r, lookupKV "doc.a.b".toList (to_valueParsed "doc".toList docFlattenExample).2 = some r ∧
      r.ref_type = RefType.object ∧ r.items = ["doc.a.b.c".toList] := by
  refine ⟨rfl, ⟨{ ref_type := RefType.object, items := ["doc.a.b.c".toList] }, rfl, rfl, rfl⟩⟩

/-! Embedding of gitdis/src/branch_handler.rs: the diff name-status token
loop of `update` and the `insert_ref!` reference-insertion step. -/

/-- Status enum (branch_handler.rs lines 69-75); `Moved` is the source's
name for renamed records. -/
inductive Status where
  | added
  | modified
  | deleted
  | moved
  | copied
deriving DecidableEq, Repr

/-- One record produced by the diff loop: the status, the first path
resolved against the repo dir, and — for `Moved` only — the second path. -/
structure DiffRec where
  status : Status
  file : Str
  new_file : Option Str
deriving DecidableEq, Repr

/-- Method `is_ignore` (branch_handler.rs lines 358-366) with the constant
ignore list `["/.git/"]` set in `new` (line 144). -/
def is_ignore (key : Str) : Bool :=
  containsStr "/.git/".toList key

/-- The token loop of `update` (branch_handler.rs lines 201-281), with the
cache effects abstracted into records: an empty token stops parsing; "A"
and "D" match exactly, then `R*`, `C*`, `M*` by prefix in that order, any
other token is skipped WITHOUT consuming a path; the consumed path is
resolved against the repo dir and the record is dropped (for `R*` without
consuming the second path) when it is ignored or has an invalid extension;
only `Moved` consumes a second path — `Copied` is handled together with
Added/Modified on a single path. -/
def parseDiff (repo_path : Str) : List Str → List DiffRec
  | [] => []
  | tok :: rest =>
    if tok = [] then []
    else
      let status? : Option Status :=
        if tok = "A".toList then some Status.added
        else if tok = "D".toList then some Status.deleted
        else if startsWithStr "R".toList tok then some Status.moved
        else if startsWithStr "C".toList tok then some Status.copied
        else if startsWithStr "M".toList tok then some Status.modified
        else none
      match status? with
      | none => parseDiff repo_path rest
      | some st =>
        match rest with
        | [] => []
        | p :: rest2 =>
          let file := repo_path ++ '/' :: p
          if is_ignore file || !(is_valid_file file) then parseDiff repo_path rest2
          else
            match st with
            | Status.moved =>
              match rest2 with
              | [] => []
              | np :: rest3 =>
                { status := Status.moved, file := file,
                  new_file := some (repo_path ++ '/' :: np) } :: parseDiff repo_path rest3
            | _ => { status := st, file := file, new_file := none } :: parseDiff repo_path rest2

/-- The `-z` diff output split at NUL, as `update` does with
`output.split('\0')`. -/
def parse_diff_output (repo_path raw : Str) : List DiffRec :=
  parseDiff repo_path (splitOnChar (Char.ofNat 0) raw)

/-- Macro `get_cache_list_positions` (branch_handler.rs lines 24-35): the
key-to-index map of the cache's current key list. -/
def get_cache_list_positions (lst : List Str) : List (Str × Nat) :=
  lst.enum.foldl (fun acc p => insertKV p.2 p.1 acc) []

/-- The value vector built for one reference entry inside `insert_ref!`
(branch_handler.rs lines 46-62): `items.len()` copies of 1 (Object) or 0
(Array), then the cache-list positions of the items that have one. -/
def refValues (positions : List (Str × Nat)) (r : Ref) : List Nat :=
  List.replicate r.items.length (if r.ref_type = RefType.object then 1 else 0)
    ++ r.items.filterMap (fun k => lookupKV k positions)

/-- Conversion of the `Vec<usize>` to a `Value` (`refs_values.to_value()`). -/
def vecToValue (ns : List Nat) : Value :=
  Value.array (ns.map (fun n => Value.number (Int.ofNat n)))

/-- Macro `insert_ref!` (branch_handler.rs lines 37-67) abstracted to the
list of `cache.insert(target, value)` calls it performs: nothing when
`refs` is empty, otherwise one insert per reference entry, in iteration
order. -/
def insert_refOps (cacheList : List Str) (refs : List (Str × Ref)) : List (Str × Value) :=
  if refs.isEmpty then []
  else
    let positions := get_cache_list_positions cacheList
    refs.map (fun tr => (tr.1, vecToValue (refValues positions tr.2)))

theorem startsWith_cons_self (c : Char) (t : Str) : startsWithStr [c] (c :: t) = true := by
  simp [startsWithStr, List.take]

theorem startsWith_cons_ne {c d : Char} (t : Str) (h : d ≠ c) :
    startsWithStr [c] (d :: t) = false := by
  simp [startsWithStr, List.take, h]

theorem charListR : ("R".toList : Str) = ['R'] := rfl

theorem charListC : ("C".toList : Str) = ['C'] := rfl

theorem charListM : ("M".toList : Str) = ['M'] := rfl

/-- C2 counterexample: the claim's own literal stream "Rxx\0a\0b\0" yields
NO record — the first path "a" fails the extension filter, the loop
`continue`s without consuming "b", and "b" is then skipped as an unknown
status token; and a `C*` record consumes only ONE path: in
"C50\0a.json\0b.json\0A\0c.json\0" the record list pairs the Copied record
with a.json alone, skips "b.json" as a status token, and still produces the
following Added record — so a C record does not consume two paths. -/
theorem diff_parse_counterexample :
    parse_diff_output "repo".toList "Rxx\x00a\x00b\x00".toList = [] ∧
    parse_diff_output "repo".toList "C50\x00a.json\x00b.json\x00A\x00c.json\x00".toList
      = [{ status := Status.copied, file := "repo/a.json".toList, new_file := Option.none },
         { status := Status.added, file := "repo/c.json".toList, new_file := Option.none }] := by
  exact ⟨by decide, by decide⟩

set_option maxHeartbeats 2000000 in
/-- C2 (amended): the diff loop maps the NUL-separated token stream so that
a token exactly "A" yields an Added record with one path, exactly "D"
yields Deleted with one path, a token starting with 'M' yields Modified
with one path, a token starting with 'R' yields Moved (renamed) and
consumes two paths PROVIDED its first path passes the ignore/extension
filter, and a token starting with 'C' yields Copied but consumes only ONE
path (it is handled together with Added/Modified); a record whose first
path is ignored or has an invalid extension is dropped without consuming
any further path (for `R*` the second path is left in the stream), and any
other status token is skipped without consuming a path. -/
theorem diff_parse_amended (repo_path p p2 q : Str) (rest : List Str)
    (ms rs cs os : Str) (o : Char)
    (hig : is_ignore (repo_path ++ '/' :: p) = false)
    (hval : is_valid_file (repo_path ++ '/' :: p) = true)
    (hq : (is_ignore (repo_path ++ '/' :: q) || !(is_valid_file (repo_path ++ '/' :: q))) = true)
    (hoR : o ≠ 'R') (hoC : o ≠ 'C') (hoM : o ≠ 'M')
    (hoA : o :: os ≠ "A".toList) (hoD : o :: os ≠ "D".toList) :
    parseDiff repo_path ("A".toList :: p :: rest)
      = { status := Status.added, file := repo_path ++ '/' :: p, new_file := Option.none }
          :: parseDiff repo_path rest ∧
    parseDiff repo_path ("D".toList :: p :: rest)
      = { status := Status.deleted, file := repo_path ++ '/' :: p, new_file := Option.none }
          :: parseDiff repo_path rest ∧
    parseDiff repo_path (('M' :: ms) :: p :: rest)
      = { status := Status.modified, file := repo_path ++ '/' :: p, new_file := Option.none }
          :: parseDiff repo_path rest ∧
    parseDiff repo_path (('R' :: rs) :: p :: p2 :: rest)
      = { status := Status.moved, file := repo_path ++ '/' :: p,
          new_file := some (repo_path ++ '/' :: p2) } :: parseDiff repo_path rest ∧
    parseDiff repo_path (('C' :: cs) :: p :: rest)
      = { status := Status.copied, file := repo_path ++ '/' :: p, new_file := Option.none }
          :: parseDiff repo_path rest ∧
    parseDiff repo_path (('R' :: rs) :: q :: rest) = parseDiff repo_path rest ∧
    parseDiff repo_path ((o :: os) :: rest) = parseDiff repo_path rest := by
  refine ⟨?_, ?_, ?_, ?_, ?_, ?_, ?_⟩
  · simp [parseDiff, hig, hval]
  · simp [parseDiff, hig, hval]
  · simp [parseDiff, hig, hval, charListR, charListM, charListC,
      startsWith_cons_self, startsWith_cons_ne]
  · simp [parseDiff, hig, hval, charListR, startsWith_cons_self]
  · simp [parseDiff, hig, hval, charListR, charListC,
      startsWith_cons_self, startsWith_cons_ne]
  · simp [parseDiff, hq, charListR, startsWith_cons_self]
  · have h1 : startsWithStr ['R'] (o :: os) = false := startsWith_cons_ne os hoR
    have h2 : startsWithStr ['C'] (o :: os) = false := startsWith_cons_ne os hoC
    have h3 : startsWithStr ['M'] (o :: os) = false := startsWith_cons_ne os hoM
    have hA' : ¬(o = 'A' ∧ os = []) := by
      rintro ⟨rfl, rfl⟩
      exact hoA rfl
    have hD' : ¬(o = 'D' ∧ os = []) := by
      rintro ⟨rfl, rfl⟩
      exact hoD rfl
    simp [parseDiff, charListR, charListC, charListM, h1, h2, h3, hA', hD']

/-- C2 witness: the amended renamed-record equation applied to the stream
tokens "Rxx", "a.json", "b.json". -/
theorem diff_parse_amended_witness :
    parseDiff "repo".toList (('R' :: "xx".toList) :: "a.json".toList :: "b.json".toList :: [])
      = [{ status := Status.moved, file := "repo/a.json".toList,
           new_file := some ("repo/b.json".toList) }] :=
  (diff_parse_amended "repo".toList "a.json".toList "b.json".toList "q".toList []
    "".toList "xx".toList "".toList "".toList 'z'
    (by decide) (by decide) (by decide) (by decide) (by decide) (by decide)
    (by decide) (by decide)).2.2.2.1

theorem refs_empty_key (root : Str) (v : Value) :
    lookupKV [] (to_valueParsed root v).2
      = some { ref_type := RefType.object, items := [root] } := by
  simp only [to_valueParsed, value_to_mapper, flattenV, flattenObjEntries]
  exact lookupKV_insert_self [] _ _

theorem insert_refOps_targets (cacheList : List Str) {refs : List (Str × Ref)}
    (h : refs ≠ []) :
    (insert_refOps cacheList refs).map Prod.fst = refs.map Prod.fst := by
  rcases refs with _ | ⟨tr, rest⟩
  · exact absurd rfl h
  · simp only [insert_refOps, List.isEmpty_cons]
    simp [List.map_map, Function.comp]

/-- C10: for every root key and every decoded document, the reference map
returned by `to_value` holds at the empty-string key an Object reference
whose children are exactly [root_key]; consequently the reference-insertion
step of the synchronizer performs a `cache.insert` whose target is the
empty-string key, whatever the cache's current key list is. -/
theorem empty_key_ref_entry (root file content : Str) (jd yd : Str → Option Value)
    (cacheList : List Str) :
    lookupKV [] (to_value root jd yd file content).2
      = some { ref_type := RefType.object, items := [root] } ∧
    [] ∈ (insert_refOps cacheList (to_value root jd yd file content).2).map Prod.fst := by
  have h1 : lookupKV [] (to_value root jd yd file content).2
      = some { ref_type := RefType.object, items := [root] } :=
    refs_empty_key root (parse_value jd yd file content)
  refine ⟨h1, ?_⟩
  have hmem : ([] : Str) ∈ (to_value root jd yd file content).2.map Prod.fst :=
    lookupKV_mem h1
  have hne : (to_value root jd yd file content).2 ≠ [] := by
    intro h
    rw [h] at hmem
    cases hmem
  rw [insert_refOps_targets cacheList hne]
  exact hmem

/-! Embedding of gitdis/src/services.rs: the link parser
`get_key_and_property` and the read path `get_data`. -/

/-- GitdisServiceError enum (services.rs lines 12-17). -/
inductive GitdisServiceError where
  | repoAlreadyExists
  | branchNotFound
  | internalError (msg : Str)
deriving DecidableEq, Repr

/-- Model of Rust `Iterator::rposition` on the bytes of a string: the
front-based index of the LAST matching element. -/
def rposition (c : Char) (l : Str) : Option Nat :=
  (position (fun x => x == c) l.reverse).map (fun i => l.length - 1 - i)

/-- Function `get_key_and_property` (services.rs lines 94-105): position of
the first '(' and of the last ')'.  When both exist the link is sliced into
`key[..start]` and `key[start+1..end]` — Rust panics (modelled `none`) when
`start + 1 > end`; with no '(' or no ')' the whole link is the key and
there is no property. -/
def get_key_and_property (key : Str) : Option (Str × Option Str) :=
  match position (fun c => c == '(') key with
  | some start =>
    match rposition ')' key with
    | some e =>
      if start + 1 ≤ e then some (key.take start, some ((key.take e).drop (start + 1)))
      else none
    | none => some (key, none)
  | none => some (key, none)

/-- Method `get_data` (services.rs lines 107-140): parse the link, resolve
the branch cache (`BranchNotFound` when absent — the lock is modelled as
always readable), look the namespace up, and resolve the property path on
`Object` values only.  The outer `none` is the slice panic propagating from
`get_key_and_property`. -/
def get_data (branchCache : Option (Quickleaf Value)) (link : Str) :
    Option (Except GitdisServiceError (Option Value)) :=
  match get_key_and_property link with
  | none => none
  | some (namespc, prop_path) =>
    match branchCache with
    | none => some (Except.error GitdisServiceError.branchNotFound)
    | some cache =>
      match lookupKV namespc cache.map with
      | none => some (Except.ok none)
      | some v =>
        match prop_path with
        | none => some (Except.ok (some v))
        | some p =>
          match v with
          | Value.object obj => some (Except.ok (lookupKV p obj))
          | _ => some (Except.ok none)

/-- C9 counterexample: at link ")(" — the last ')' precedes the first '('
— the byte-range slice `&key[start+1..end]` panics, so `get_data` produces
no `Ok` result at all, while the claim says every link resolves to an
`Ok(...)` value (here, `Ok(None)` since the key ")(" is absent). -/
theorem get_data_counterexample :
    get_data (some (Quickleaf.new Value 10)) ")(".toList = none ∧
    (none : Option (Except GitdisServiceError (Option Value)))
      ≠ some (Except.ok none) := by
  constructor
  · rfl
  · intro h
    cases h

theorem position_eq_none {α : Type} (p : α → Bool) : ∀ {l : List α},
    (∀ x ∈ l, p x = false) → position p l = none := by
  intro l
  induction l with
  | nil => intro _; rfl
  | cons x t ih =>
    intro h
    simp only [position, h x (List.mem_cons_self x t), Bool.false_eq_true, if_neg,
      not_false_iff]
    rw [ih (fun y hy => h y (List.mem_cons_of_mem x hy))]
    rfl

theorem position_append_true {α : Type} (p : α → Bool) {a : List α} {c : α} (b : List α)
    (hc : p c = true) (ha : ∀ x ∈ a, p x = false) :
    position p (a ++ c :: b) = some a.length := by
  induction a with
  | nil => simp [position, hc]
  | cons x t ih =>
    have hx := ha x (List.mem_cons_self x t)
    simp only [List.cons_append, position, hx, Bool.false_eq_true, if_neg, not_false_iff]
    simp only [List.append_eq]
    rw [ih (fun y hy => ha y (List.mem_cons_of_mem x hy))]
    simp [List.length_cons]

/-- C9 (amended): `get_data` behaves as the claim says on every link in
which the parenthesis slice is well-formed: when the link is
`a ++ "(" ++ m ++ ")" ++ t` with no '(' in `a` and no ')' in `t`, the
cache key is `a` and the sub-path is `m` (text after the last ')' is
dropped), and the result is `Ok(None)` for an absent key, the member at
`m` for an `Object` value, and `Ok(None)` otherwise; when the link has no
'(' at all there is no sub-path and the stored value (or `None`) is
returned.  Outside this shape — when the last ')' precedes the first '('
— the slice panics instead of returning `Ok`. -/
theorem get_data_amended (cache : Quickleaf Value) (link a m t : Str)
    (ha : '(' ∉ a) (ht : ')' ∉ t) (hl : '(' ∉ link) :
    get_data (some cache) (a ++ '(' :: (m ++ ')' :: t))
      = some (Except.ok (match lookupKV a cache.map with
        | none => none
        | some v =>
          match v with
          | Value.object obj => lookupKV m obj
          | _ => none)) ∧
    get_data (some cache) link = some (Except.ok (lookupKV link cache.map)) := by
  constructor
  · have hstart : position (fun c => c == '(') (a ++ '(' :: (m ++ ')' :: t))
        = some a.length :=
      position_append_true _ (m ++ ')' :: t) (by simp)
        (fun x hx => beq_eq_false_iff_ne.mpr (fun he => ha (he ▸ hx)))
    have hrev : (a ++ '(' :: (m ++ ')' :: t)).reverse
        = t.reverse ++ ')' :: (m.reverse ++ '(' :: a.reverse) := by
      simp
    have hposrev : position (fun x => x == ')') (a ++ '(' :: (m ++ ')' :: t)).reverse
        = some t.length := by
      rw [hrev]
      rw [position_append_true _ (m.reverse ++ '(' :: a.reverse) (by simp)
        (fun x hx => beq_eq_false_iff_ne.mpr
          (fun he => ht (by rw [← he]; exact List.mem_reverse.mp hx)))]
      rw [List.length_reverse]
    have hlen : (a ++ '(' :: (m ++ ')' :: t)).length
        = a.length + m.length + t.length + 2 := by
      simp [List.length_append, List.length_cons]
      omega
    have hrpos : rposition ')' (a ++ '(' :: (m ++ ')' :: t))
        = some (a.length + m.length + 1) := by
      simp only [rposition, hposrev, Option.map_some']
      rw [hlen]
      congr 1
      omega
    have htake1 : (a ++ '(' :: (m ++ ')' :: t)).take a.length = a := by
      have h := take_len_append a ('(' :: (m ++ ')' :: t))
      exact h
    have hassoc : a ++ '(' :: (m ++ ')' :: t) = (a ++ '(' :: m) ++ ')' :: t := by
      simp
    have hl2 : (a ++ '(' :: m).length = a.length + m.length + 1 := by
      simp [List.length_append, List.length_cons]
      omega
    have htake2 : (a ++ '(' :: (m ++ ')' :: t)).take (a.length + m.length + 1)
        = a ++ '(' :: m := by
      rw [hassoc, ← hl2]
      exact take_len_append (a ++ '(' :: m) (')' :: t)
    have hassoc2 : a ++ '(' :: m = (a ++ ['(']) ++ m := by
      simp
    have hl3 : (a ++ ['(']).length = a.length + 1 := by
      simp
    have hdrop : (a ++ '(' :: m).drop (a.length + 1) = m := by
      rw [hassoc2, ← hl3]
      exact drop_len_append (a ++ ['(']) m
    have hkp : get_key_and_property (a ++ '(' :: (m ++ ')' :: t)) = some (a, some m) := by
      simp only [get_key_and_property, hstart, hrpos]
      rw [if_pos (by omega)]
      rw [htake1, htake2, hdrop]
    simp only [get_data, hkp]
    rcases hlook : lookupKV a cache.map with _ | v
    · rfl
    · cases v <;> rfl
  · have hstart2 : position (fun c => c == '(') link = none :=
      position_eq_none _ (fun x hx => beq_eq_false_iff_ne.mpr (fun he => hl (he ▸ hx)))
    have hkp : get_key_and_property link = some (link, none) := by
      simp only [get_key_and_property, hstart2]
    simp only [get_data, hkp]
    rcases hlook : lookupKV link cache.map with _ | v
    · rfl
    · rfl

/-- Cache state used by the C9 witness: one entry holding an object with a
single member. -/
def witnessCacheC9 : Quickleaf Value :=
  { map := [("k".toList, Value.object [("p".toList, Value.number 7)])],
    list := ["k".toList],
    capacity := 10 }

/-- C9 witness: the amended statement applied to a cache holding an object
under key "k", with links "k(p)" and "q". -/
theorem get_data_amended_witness :
    get_data (some witnessCacheC9) ("k".toList ++ '(' :: ("p".toList ++ ')' :: []))
      = some (Except.ok (some (Value.number 7))) ∧
    get_data (some witnessCacheC9) "q".toList = some (Except.ok none) :=
  have h := get_data_amended witnessCacheC9
    "q".toList "k".toList "p".toList [] (by decide) (by decide) (by decide)
  ⟨h.1, h.2⟩
